import Mathlib

/-!
Verification development for the ACI search engine
(`src/applications/search/aciSearchDb.py`): the query-token parser
(`Term.parse_input` / `Term.build_search_term`), the seven-table inverted
index (`SearchIndexLookup._index_searchables`) and the query executor and
ranker (`SearchIndexLookup.search` / `_rank_results`).

Python strings are modelled as `List Char`; Python `set`s of record ids as
duplicate-free lists; Python `dict`s as association lists whose keys are
unique.  Code that can raise (`strng[0]` on an empty string) is modelled
with `Option`: `none` is an exception propagating out.
-/

/-- Python strings, modelled as their character lists. -/
abbrev Str : Type := List Char

/-- Character list of a Lean string literal (used only to write concrete values). -/
def lit (s : String) : Str := s.data

/-- The four escape-marker characters of the query grammar: `#`, `@`, `=`, `*`.
This is the character class `[@=#*]` of the regexes in `Term.build_search_term`. -/
def isMarker (c : Char) : Bool := c = '#' || c = '@' || c = '=' || c = '*'

/-- `re.search(esc + '([^@=#*]+)[@=#\*]', s)`: the leftmost occurrence of `esc`
followed by at least one non-marker character and then a marker character;
returns the captured non-marker run. -/
def searchMid (esc : Char) : Str → Option Str
  | [] => none
  | c :: rest =>
    if c = esc then
      let run := rest.takeWhile (fun x => !(isMarker x))
      if 0 < run.length ∧ run.length < rest.length then some run
      else searchMid esc rest
    else searchMid esc rest

/-- `re.search(esc + '([^@=#*]*)$', s)`: the leftmost occurrence of `esc` all of
whose following characters are non-markers up to the end of the string;
returns that (possibly empty) suffix. -/
def searchEnd (esc : Char) : Str → Option Str
  | [] => none
  | c :: rest =>
    if c = esc ∧ rest.all (fun x => !(isMarker x)) then some rest
    else searchEnd esc rest

/-- `Term.build_search_term(escape_char, strng)`: the mid regex is consulted
first, the end regex only when mid fails; `valid` is whether the captured
group is non-empty. -/
def build_search_term (esc : Char) (s : Str) : Bool × Str :=
  match searchMid esc s with
  | some g => (decide (g ≠ []), g)
  | none =>
    match searchEnd esc s with
    | some g => (decide (g ≠ []), g)
    | none => (false, [])

/-- A `Term.key`: in the source it is either a plain string or a 2- or 3-tuple
of strings, depending on the term kind. -/
inductive TermKey where
  | k1 (a : Str)
  | k2 (a b : Str)
  | k3 (a b c : Str)
deriving DecidableEq

/-- `Term(key, term_type, points)` from the source: `term_type` is one of the
strings `c`, `a`, `v`, `ca`, `cv`, `av`, `cav`. -/
structure Term where
  key : TermKey
  type : Str
  points : Nat
deriving DecidableEq

/-- The implicit-wildcard normalisation at the top of `Term.parse_input`: a
leading `*` is prepended unless the first character is `#`, `@` or `=`.
(The Python membership test compares `strng[0]` against the two-character
regex string `'\\*'` as well, which a single character never equals, so a
token already starting with `*` still gets a second `*` prepended.) -/
def normalizeToken : Str → Str
  | [] => []
  | c :: rest =>
    if c = '#' ∨ c = '@' ∨ c = '=' then c :: rest
    else '*' :: c :: rest

/-- The cascade of `if` branches in `Term.parse_input`, applied to the four
`build_search_term` results (class, attr, value, any). -/
def branches (cls attr val any : Bool × Str) : List Term :=
  if cls.1 && attr.1 && val.1 then
    [⟨.k3 cls.2 attr.2 val.2, lit "cav", 8⟩]
  else if cls.1 && attr.1 then
    if any.1 then [⟨.k3 cls.2 attr.2 any.2, lit "cav", 6⟩]
    else [⟨.k2 cls.2 attr.2, lit "ca", 4⟩]
  else if cls.1 && val.1 then
    if any.1 then [⟨.k3 cls.2 any.2 val.2, lit "cav", 6⟩]
    else [⟨.k2 cls.2 val.2, lit "cv", 4⟩]
  else if cls.1 && any.1 then
    [⟨.k2 cls.2 any.2, lit "ca", 3⟩, ⟨.k2 cls.2 any.2, lit "cv", 3⟩]
  else if attr.1 && val.1 then
    if any.1 then [⟨.k3 any.2 attr.2 val.2, lit "cav", 6⟩]
    else [⟨.k2 attr.2 val.2, lit "av", 4⟩]
  else if attr.1 && any.1 then
    [⟨.k2 any.2 attr.2, lit "ca", 3⟩, ⟨.k2 attr.2 any.2, lit "av", 3⟩]
  else if val.1 && any.1 then
    [⟨.k2 any.2 val.2, lit "cv", 3⟩, ⟨.k2 any.2 val.2, lit "av", 3⟩]
  else if cls.1 then [⟨.k1 cls.2, lit "c", 2⟩]
  else if attr.1 then [⟨.k1 attr.2, lit "a", 2⟩]
  else if val.1 then [⟨.k1 val.2, lit "v", 2⟩]
  else if any.1 then
    [⟨.k1 any.2, lit "c", 1⟩, ⟨.k1 any.2, lit "a", 1⟩, ⟨.k1 any.2, lit "v", 1⟩]
  else []

/-- `Term.parse_input(strng)`.  On the empty string the source evaluates
`strng[0]` which raises `IndexError`; that is the `none` case. -/
def parse_input (s : Str) : Option (List Term) :=
  match s with
  | [] => none
  | _ :: _ =>
    let ns := normalizeToken s
    some (branches (build_search_term '#' ns) (build_search_term '@' ns)
      (build_search_term '=' ns) (build_search_term '*' ns))

/-- Python `str()` of a string (identity) or of a tuple of strings, as used on
`Term.key` in `_rank_results` (`str(result[0].key)`).  Tuple elements are
rendered with `repr`, modelled here for quote-free strings as the element
between two single-quote characters. -/
def pyRepr (s : Str) : Str := Char.ofNat 39 :: s ++ [Char.ofNat 39]

/-- Stringification of a term key, `str(term.key)`. -/
def pyStrOfKey : TermKey → Str
  | .k1 a => a
  | .k2 a b => '(' :: pyRepr a ++ lit ", " ++ pyRepr b ++ [')']
  | .k3 a b c => '(' :: pyRepr a ++ lit ", " ++ pyRepr b ++ lit ", " ++ pyRepr c ++ [')']

/-- A Python `set` of record ids: a duplicate-free list; order carries no meaning. -/
abbrev IdSet : Type := List Str

/-- `set.add`: insert if absent. -/
def insertSet (s : IdSet) (id : Str) : IdSet :=
  if id ∈ s then s else s ++ [id]

/-- A Python `dict` from term keys to id sets: an association list with unique
keys.  All seven index tables have this type (a Python dict can hold keys of
any shape; a lookup with a key of the wrong shape is simply a miss). -/
abbrev TermMap : Type := List (TermKey × IdSet)

/-- `d.get(k)`: `none` on a missing key. -/
def lookupTable (m : TermMap) (k : TermKey) : Option IdSet :=
  (m.find? (fun p => p.1 = k)).map (fun p => p.2)

/-- The id set stored under `k`, or the empty set when `k` is absent. -/
def getSet (m : TermMap) (k : TermKey) : IdSet :=
  (lookupTable m k).getD []

/-- `if k not in d: d[k] = set()` followed by `d[k].add(id)`. -/
def insertId (m : TermMap) (k : TermKey) (id : Str) : TermMap :=
  match m with
  | [] => [(k, [id])]
  | (k', s) :: rest =>
    if k' = k then (k', insertSet s id) :: rest
    else (k', s) :: insertId rest k id

/-- The per-item score record `{'pscore': …, 'sscore': …, 'terms': …}` of
`_rank_results`; `terms` is a set of stringified keys (duplicate-free list). -/
structure RankRec where
  pscore : Nat
  sscore : Nat
  terms : List Str
deriving DecidableEq

/-- One entry of the response list of `_rank_results`:
`{'pscore': …, 'sscore': …, 'terms': …, 'uid': …}`. -/
structure RankedResult where
  uid : Str
  pscore : Nat
  sscore : Nat
  terms : List Str
deriving DecidableEq

/-- The state of a `SearchIndexLookup` object: the seven index tables set up
in `__init__` plus `ranked_items`, which `search` (via `_rank_results`)
overwrites on the object. -/
structure SearchIndexLookup where
  by_attr : TermMap
  by_value : TermMap
  by_class : TermMap
  by_attr_value : TermMap
  by_class_value : TermMap
  by_class_attr : TermMap
  by_class_attr_value : TermMap
  ranked_items : List (Str × RankRec)
deriving DecidableEq

/-- A freshly constructed `SearchIndexLookup()`. -/
def initIndex : SearchIndexLookup := ⟨[], [], [], [], [], [], [], []⟩

/-- One searchable input record, with the fields `_index_searchables` reads:
`object_class`, `attr`, `value`, `attr_value`, and the unique id
`primary.get_attributes()['dn']`. -/
structure Searchable where
  object_class : Str
  attr : List Str
  value : List Str
  attr_value : List (Str × Str)
  dn : Str
deriving DecidableEq

/-- The body of the `for searchable in searchables` loop of
`_index_searchables`: the record's id is added to the seven tables under its
class, attribute, value and pair keys.  The source updates two tables inside
one loop over the attributes (likewise values and pairs); the tables are
independent fields, so each table is written here as its own fold over the
same list. -/
def addSearchable (idx : SearchIndexLookup) (sr : Searchable) : SearchIndexLookup :=
  { by_class := insertId idx.by_class (.k1 sr.object_class) sr.dn
    by_attr := sr.attr.foldl (fun m a => insertId m (.k1 a) sr.dn) idx.by_attr
    by_class_attr := sr.attr.foldl
      (fun m a => insertId m (.k2 sr.object_class a) sr.dn) idx.by_class_attr
    by_value := sr.value.foldl (fun m v => insertId m (.k1 v) sr.dn) idx.by_value
    by_class_value := sr.value.foldl
      (fun m v => insertId m (.k2 sr.object_class v) sr.dn) idx.by_class_value
    by_attr_value := sr.attr_value.foldl
      (fun m p => insertId m (.k2 p.1 p.2) sr.dn) idx.by_attr_value
    by_class_attr_value := sr.attr_value.foldl
      (fun m p => insertId m (.k3 sr.object_class p.1 p.2) sr.dn) idx.by_class_attr_value
    ranked_items := idx.ranked_items }

/-- `SearchIndexLookup._index_searchables(searchables)`: the seven tables are
reset to empty dicts and repopulated from the record list; `ranked_items` is
not touched. -/
def index_searchables (idx : SearchIndexLookup) (srs : List Searchable) : SearchIndexLookup :=
  srs.foldl addSearchable { initIndex with ranked_items := idx.ranked_items }

/-- The dispatch on `term.type` in `search`: each of the seven `if` statements
appends `(term, table.get(term.key))` for its own table. -/
def dispatch (idx : SearchIndexLookup) (t : Term) : List (Term × Option IdSet) :=
  (if t.type = lit "cav" then [(t, lookupTable idx.by_class_attr_value t.key)] else []) ++
  (if t.type = lit "ca" then [(t, lookupTable idx.by_class_attr t.key)] else []) ++
  (if t.type = lit "cv" then [(t, lookupTable idx.by_class_value t.key)] else []) ++
  (if t.type = lit "av" then [(t, lookupTable idx.by_attr_value t.key)] else []) ++
  (if t.type = lit "c" then [(t, lookupTable idx.by_class t.key)] else []) ++
  (if t.type = lit "a" then [(t, lookupTable idx.by_attr t.key)] else []) ++
  (if t.type = lit "v" then [(t, lookupTable idx.by_value t.key)] else [])

/-- The table a term's kind selects, for stating lookups: for the seven kinds,
`dispatch idx t = [(t, lookupFor idx t)]`. -/
def lookupFor (idx : SearchIndexLookup) (t : Term) : Option IdSet :=
  if t.type = lit "cav" then lookupTable idx.by_class_attr_value t.key
  else if t.type = lit "ca" then lookupTable idx.by_class_attr t.key
  else if t.type = lit "cv" then lookupTable idx.by_class_value t.key
  else if t.type = lit "av" then lookupTable idx.by_attr_value t.key
  else if t.type = lit "c" then lookupTable idx.by_class t.key
  else if t.type = lit "a" then lookupTable idx.by_attr t.key
  else if t.type = lit "v" then lookupTable idx.by_value t.key
  else none

/-- Python `str.strip()`'s whitespace class. -/
def pyIsSpace (c : Char) : Bool :=
  c = ' ' || c = '\t' || c = '\n' || c = '\r' || c = Char.ofNat 11 || c = Char.ofNat 12

/-- `s.strip()`. -/
def pyStrip (s : Str) : Str :=
  ((s.dropWhile pyIsSpace).reverse.dropWhile pyIsSpace).reverse

/-- `s.split(' ')` with Python semantics for an explicit separator: the result
always has one more element than there are spaces, so `''.split(' ') == ['']`
and consecutive spaces produce empty tokens. -/
def pySplitSpace : Str → List Str
  | [] => [[]]
  | c :: rest =>
    if c = ' ' then [] :: pySplitSpace rest
    else
      match pySplitSpace rest with
      | [] => [[c]]
      | tok :: toks => (c :: tok) :: toks

/-- `SearchIndexLookup._get_terms(term_string)`: strip, split on spaces, and
concatenate the parses; an empty token makes `Term.parse_input` raise
(`none`). -/
def get_terms (q : Str) : Option (List Term) :=
  let toks := pySplitSpace (pyStrip q)
  toks.foldr (fun tok acc =>
    match parse_input tok, acc with
    | some l, some ls => some (l ++ ls)
    | _, _ => none) (some [])

/-- The union step of `_rank_results`: `master_items |= results[1]` for every
non-`None` match set. -/
def masterOf (rs : List (Term × Option IdSet)) : IdSet :=
  rs.foldl (fun acc p =>
    match p.2 with
    | some s => s.foldl insertSet acc
    | none => acc) []

/-- Does the pair `(term, match set)` contribute to item `id`
(`result[1] is not None and atk_obj in result[1]`)? -/
def contrib (id : Str) (p : Term × Option IdSet) : Bool :=
  match p.2 with
  | some s => decide (id ∈ s)
  | none => false

/-- One step of the inner scoring loop of `_rank_results`: a contributing
pair adds its points to `pscore` and its stringified key to `terms`. -/
def scoreStep (id : Str) (rec : RankRec) (p : Term × Option IdSet) : RankRec :=
  if contrib id p then
    { pscore := rec.pscore + p.1.points, sscore := rec.sscore,
      terms := insertSet rec.terms (pyStrOfKey p.1.key) }
  else rec

/-- The inner scoring loop of `_rank_results` for one item. -/
def scoreItem (rs : List (Term × Option IdSet)) (id : Str) : RankRec :=
  rs.foldl (scoreStep id) ⟨0, 0, []⟩

/-- Python string comparison `a < b` (lexicographic on character codes,
a strict prefix sorting first). -/
def strLtB : Str → Str → Bool
  | [], [] => false
  | [], _ :: _ => true
  | _ :: _, [] => false
  | a :: as, b :: bs => if a.toNat = b.toNat then strLtB as bs else decide (a.toNat < b.toNat)

/-- The sort key comparison of `_rank_results`:
`sorted(..., key=lambda x: (-pscore, -sscore, x))` compares the tuples
`(-pscore, -sscore, uid)` lexicographically; this is the induced `≤` on the
`(uid, record)` pairs being sorted. -/
def rankLe (a b : Str × RankRec) : Bool :=
  if a.2.pscore ≠ b.2.pscore then decide (b.2.pscore < a.2.pscore)
  else if a.2.sscore ≠ b.2.sscore then decide (b.2.sscore < a.2.sscore)
  else !(strLtB b.1 a.1)

/-- Insertion step of the sort. -/
def pyInsert {α : Type} (le : α → α → Bool) (x : α) : List α → List α
  | [] => [x]
  | y :: ys => if le x y then x :: y :: ys else y :: pyInsert le x ys

/-- Python's `sorted(...)`, modelled as insertion sort: on the lists sorted
here the comparison key `(-pscore, -sscore, uid)` is total and distinct
between any two entries (uids are unique), so every sort produces the same,
uniquely determined output. -/
def pySorted {α : Type} (le : α → α → Bool) : List α → List α
  | [] => []
  | x :: xs => pyInsert le x (pySorted le xs)

/-- `SearchIndexLookup._rank_results(unranked_results)`: build the candidate
set, score each candidate, sort by `(-pscore, -sscore, uid)`, truncate to 100
entries, and return them with `len(self.ranked_items)`.  The first component
is the `self.ranked_items` dict the method stores on the object. -/
def rank_results (rs : List (Term × Option IdSet)) :
    List (Str × RankRec) × List RankedResult × Nat :=
  let ranked := (masterOf rs).map (fun id => (id, scoreItem rs id))
  let sorted := pySorted rankLe ranked
  let resp := (sorted.take 100).map (fun p => ⟨p.1, p.2.pscore, p.2.sscore, p.2.terms⟩)
  (ranked, resp, ranked.length)

theorem pyInsert_perm {α : Type} (le : α → α → Bool) (x : α) (l : List α) :
    (pyInsert le x l).Perm (x :: l) := by
  induction l with
  | nil => exact List.Perm.refl _
  | cons y ys ih =>
    rw [pyInsert]
    by_cases hxy : le x y
    · rw [if_pos hxy]
    · rw [if_neg hxy]
      exact (ih.cons y).trans (List.Perm.swap x y ys)

theorem mem_pyInsert {α : Type} (le : α → α → Bool) (x a : α) (l : List α) :
    a ∈ pyInsert le x l ↔ a = x ∨ a ∈ l := by
  rw [(pyInsert_perm le x l).mem_iff, List.mem_cons]

theorem pySorted_perm {α : Type} (le : α → α → Bool) (l : List α) :
    (pySorted le l).Perm l := by
  induction l with
  | nil => exact List.Perm.refl _
  | cons x xs ih => exact (pyInsert_perm le x (pySorted le xs)).trans (ih.cons x)

theorem sorted_pyInsert {α : Type} (le : α → α → Bool)
    (trans : ∀ a b c, le a b → le b c → le a c)
    (total : ∀ a b, le a b || le b a) (x : α) (l : List α)
    (hl : l.Pairwise (le · ·)) : (pyInsert le x l).Pairwise (le · ·) := by
  induction l with
  | nil => simp [pyInsert]
  | cons y ys ih =>
    obtain ⟨hy, hys⟩ := List.pairwise_cons.mp hl
    rw [pyInsert]
    by_cases hxy : le x y
    · rw [if_pos hxy]
      refine List.pairwise_cons.mpr ⟨?_, hl⟩
      intro z hz
      rcases List.mem_cons.mp hz with rfl | hz'
      · exact hxy
      · exact trans x y z hxy (hy z hz')
    · rw [if_neg hxy]
      have hyx : le y x := by
        have ht := total x y
        simp only [Bool.or_eq_true] at ht
        rcases ht with ht | ht
        · exact absurd ht hxy
        · exact ht
      refine List.pairwise_cons.mpr ⟨?_, ih hys⟩
      intro z hz
      rcases (mem_pyInsert le x z ys).mp hz with rfl | hz'
      · exact hyx
      · exact hy z hz'

theorem sorted_pySorted {α : Type} (le : α → α → Bool)
    (trans : ∀ a b c, le a b → le b c → le a c)
    (total : ∀ a b, le a b || le b a) (l : List α) :
    (pySorted le l).Pairwise (le · ·) := by
  induction l with
  | nil => simp [pySorted]
  | cons x xs ih => exact sorted_pyInsert le trans total x (pySorted le xs) ih

/-- `SearchIndexLookup.search(term_string)`: parse the query, look every term
up in its table, rank.  Returns the updated object state (with the new
`ranked_items`) and the `(results, total)` pair; `none` models the
`IndexError` escaping when a token is empty. -/
def search (idx : SearchIndexLookup) (q : Str) :
    Option (SearchIndexLookup × List RankedResult × Nat) :=
  match get_terms q with
  | none => none
  | some ts =>
    let rr := rank_results (ts.flatMap (dispatch idx))
    some ({ idx with ranked_items := rr.1 }, rr.2.1, rr.2.2)

/-- The `(results, total)` pair of a `search` call, when it returns. -/
def searchOut (idx : SearchIndexLookup) (q : Str) : Option (List RankedResult × Nat) :=
  (search idx q).map (fun o => o.2)

/-- Modelled from the spec: the disambiguation table of §4.1, one row per
combination of valid (class, attr, value, any) segments, in the spec's
priority order; each row lists the resulting Terms and weights. -/
def disambigTable (cls attr val any : Bool × Str) : List Term :=
  match cls.1, attr.1, val.1, any.1 with
  | true, true, true, _ => [⟨.k3 cls.2 attr.2 val.2, lit "cav", 8⟩]
  | true, true, false, true => [⟨.k3 cls.2 attr.2 any.2, lit "cav", 6⟩]
  | true, true, false, false => [⟨.k2 cls.2 attr.2, lit "ca", 4⟩]
  | true, false, true, true => [⟨.k3 cls.2 any.2 val.2, lit "cav", 6⟩]
  | true, false, true, false => [⟨.k2 cls.2 val.2, lit "cv", 4⟩]
  | true, false, false, true =>
    [⟨.k2 cls.2 any.2, lit "ca", 3⟩, ⟨.k2 cls.2 any.2, lit "cv", 3⟩]
  | false, true, true, true => [⟨.k3 any.2 attr.2 val.2, lit "cav", 6⟩]
  | false, true, true, false => [⟨.k2 attr.2 val.2, lit "av", 4⟩]
  | false, true, false, true =>
    [⟨.k2 any.2 attr.2, lit "ca", 3⟩, ⟨.k2 attr.2 any.2, lit "av", 3⟩]
  | false, false, true, true =>
    [⟨.k2 any.2 val.2, lit "cv", 3⟩, ⟨.k2 any.2 val.2, lit "av", 3⟩]
  | true, false, false, false => [⟨.k1 cls.2, lit "c", 2⟩]
  | false, true, false, false => [⟨.k1 attr.2, lit "a", 2⟩]
  | false, false, true, false => [⟨.k1 val.2, lit "v", 2⟩]
  | false, false, false, true =>
    [⟨.k1 any.2, lit "c", 1⟩, ⟨.k1 any.2, lit "a", 1⟩, ⟨.k1 any.2, lit "v", 1⟩]
  | false, false, false, false => []

theorem branches_eq_disambigTable (cls attr val any : Bool × Str) :
    branches cls attr val any = disambigTable cls attr val any := by
  obtain ⟨b1, s1⟩ := cls
  obtain ⟨b2, s2⟩ := attr
  obtain ⟨b3, s3⟩ := val
  obtain ⟨b4, s4⟩ := any
  cases b1 <;> cases b2 <;> cases b3 <;> cases b4 <;> rfl

theorem searchMid_eq_none (esc : Char) (l : Str) (h : esc ∉ l) :
    searchMid esc l = none := by
  induction l with
  | nil => rfl
  | cons c rest ih =>
    simp only [List.mem_cons, not_or] at h
    have hcne : ¬ c = esc := fun hc => h.1 hc.symm
    simp [searchMid, hcne, ih h.2]

theorem searchEnd_eq_none (esc : Char) (l : Str) (h : esc ∉ l) :
    searchEnd esc l = none := by
  induction l with
  | nil => rfl
  | cons c rest ih =>
    simp only [List.mem_cons, not_or] at h
    have hcne : ¬ c = esc := fun hc => h.1 hc.symm
    simp [searchEnd, hcne, ih h.2]

theorem build_search_term_not_mem (esc : Char) (l : Str) (h : esc ∉ l) :
    build_search_term esc l = (false, []) := by
  simp [build_search_term, searchMid_eq_none esc l h, searchEnd_eq_none esc l h]

theorem takeWhile_of_all {α : Type} (p : α → Bool) :
    (l : List α) → (∀ c ∈ l, p c = true) → l.takeWhile p = l
  | [], _ => rfl
  | c :: rest, h => by
    simp [List.takeWhile, h c (List.mem_cons_self c rest),
      takeWhile_of_all p rest (fun x hx => h x (List.mem_cons_of_mem c hx))]

theorem build_search_term_star (s : Str) (hne : s ≠ [])
    (hnm : ∀ c ∈ s, isMarker c = false) :
    build_search_term '*' ('*' :: s) = (true, s) := by
  have hstar : '*' ∉ s := fun hm => by
    have := hnm '*' hm
    simp [isMarker] at this
  have htw : s.takeWhile (fun x => !(isMarker x)) = s :=
    takeWhile_of_all _ s (fun c hc => by simp [hnm c hc])
  have hmid : searchMid '*' ('*' :: s) = none := by
    simp [searchMid, htw, searchMid_eq_none '*' s hstar]
  have hall : (s.all fun x => !(isMarker x)) = true :=
    List.all_eq_true.mpr (fun c hc => by simp [hnm c hc])
  have hend : searchEnd '*' ('*' :: s) = some s := by
    simp [searchEnd, hall]
  simp [build_search_term, hmid, hend, hne]

/-- C1: for every non-empty whitespace-free token, `parse_input` returns
exactly the Terms of the disambiguation table applied to the four extracted
(validity, content) segments of the implicitly-`*`-prefixed token — first
matching row wins, with the table's kinds, keys and weights — and a bare
token without any escape marker yields exactly the three Terms of kinds `c`,
`a`, `v`, each of weight 1, keyed with the token itself. -/
theorem parse_input_follows_disambig_table (s : Str) (hs : s ≠ []) :
    parse_input s =
      some (disambigTable (build_search_term '#' (normalizeToken s))
        (build_search_term '@' (normalizeToken s))
        (build_search_term '=' (normalizeToken s))
        (build_search_term '*' (normalizeToken s)))
    ∧ ((∀ c ∈ s, isMarker c = false) →
        parse_input s =
          some [⟨.k1 s, lit "c", 1⟩, ⟨.k1 s, lit "a", 1⟩, ⟨.k1 s, lit "v", 1⟩]) := by
  obtain ⟨c, rest, rfl⟩ := List.exists_cons_of_ne_nil hs
  constructor
  · show some (branches _ _ _ _) = _
    rw [branches_eq_disambigTable]
  · intro hnm
    have hc : isMarker c = false := hnm c (List.mem_cons_self c rest)
    have hnorm : normalizeToken (c :: rest) = '*' :: c :: rest := by
      have hnc : ¬(c = '#' ∨ c = '@' ∨ c = '=') := by
        intro hor
        rcases hor with h | h | h <;> (subst h; simp [isMarker] at hc)
      simp [normalizeToken, hnc]
    have hout : ∀ esc, isMarker esc = true → esc ≠ '*' →
        esc ∉ ('*' :: c :: rest) := by
      intro esc hesc hner hmem
      rcases List.mem_cons.mp hmem with h | h
      · exact hner h
      · rw [hnm esc h] at hesc
        cases hesc
    have hS : build_search_term '*' ('*' :: c :: rest) = (true, c :: rest) :=
      build_search_term_star _ (List.cons_ne_nil c rest) hnm
    have hC : build_search_term '#' ('*' :: c :: rest) = (false, []) :=
      build_search_term_not_mem _ _ (hout '#' rfl (by decide))
    have hA : build_search_term '@' ('*' :: c :: rest) = (false, []) :=
      build_search_term_not_mem _ _ (hout '@' rfl (by decide))
    have hV : build_search_term '=' ('*' :: c :: rest) = (false, []) :=
      build_search_term_not_mem _ _ (hout '=' rfl (by decide))
    have hp : parse_input (c :: rest) =
        some (branches (build_search_term '#' (normalizeToken (c :: rest)))
          (build_search_term '@' (normalizeToken (c :: rest)))
          (build_search_term '=' (normalizeToken (c :: rest)))
          (build_search_term '*' (normalizeToken (c :: rest)))) := rfl
    rw [hp, hnorm, hC, hA, hV, hS]
    rfl

/-- Witness for C1: the theorem applied at the concrete bare token "leaf". -/
theorem parse_input_follows_disambig_table_witness :
    parse_input (lit "leaf") =
      some [⟨.k1 (lit "leaf"), lit "c", 1⟩, ⟨.k1 (lit "leaf"), lit "a", 1⟩,
        ⟨.k1 (lit "leaf"), lit "v", 1⟩] :=
  (parse_input_follows_disambig_table (lit "leaf") (by decide)).2 (by decide)

/-- C3 counterexample: the token "#Tenant*" does not parse to the claimed
pair of weight-3 `ca`/`cv` Terms keyed ("Tenant",""). -/
theorem tenantStar_not_two_terms :
    parse_input (lit "#Tenant*") ≠
      some [⟨.k2 (lit "Tenant") (lit ""), lit "ca", 3⟩,
        ⟨.k2 (lit "Tenant") (lit ""), lit "cv", 3⟩] := by
  decide

/-- C3 amended: a trailing `*` with empty content is an invalid wildcard
segment (validity requires non-empty content), so "#Tenant*" parses to
exactly one Term of kind `c`, key "Tenant", weight 2. -/
theorem tenantStar_parses_class_only :
    build_search_term '*' (lit "#Tenant*") = (false, []) ∧
      parse_input (lit "#Tenant*") = some [⟨.k1 (lit "Tenant"), lit "c", 2⟩] := by
  decide

/-- C2 (code bug): `search("")` does not return an empty result with
`totalCandidates = 0`; `''.strip().split(' ')` is `['']` and
`Term.parse_input('')` evaluates `strng[0]`, raising `IndexError`, so the
exception propagates out of `search` (modelled as `none`). -/
theorem search_empty_query_raises :
    parse_input (lit "") = none ∧
      search (index_searchables initIndex
        [⟨lit "X", [lit "a"], [lit "v"], [(lit "a", lit "v")], lit "u"⟩]) (lit "") =
        none := by
  decide

theorem mem_insertSet {s : IdSet} {x a : Str} : a ∈ insertSet s x ↔ a ∈ s ∨ a = x := by
  by_cases h : x ∈ s
  · simp only [insertSet, if_pos h]
    constructor
    · exact Or.inl
    · rintro (h' | rfl)
      · exact h'
      · exact h
  · simp [insertSet, if_neg h]

theorem nodup_insertSet {s : IdSet} {x : Str} (h : s.Nodup) : (insertSet s x).Nodup := by
  by_cases hx : x ∈ s
  · simpa [insertSet, hx] using h
  · simp [insertSet, hx, List.nodup_append, h]

theorem contrib_iff {a : Str} {p : Term × Option IdSet} :
    contrib a p = true ↔ ∃ s, p.2 = some s ∧ a ∈ s := by
  obtain ⟨t, os⟩ := p
  cases os <;> simp [contrib]

theorem mem_foldl_insertSet (s : List Str) (acc : IdSet) (a : Str) :
    a ∈ s.foldl insertSet acc ↔ a ∈ acc ∨ a ∈ s := by
  induction s generalizing acc with
  | nil => simp
  | cons x xs ih =>
    rw [List.foldl_cons, ih]
    simp [mem_insertSet]
    tauto

theorem nodup_foldl_insertSet (s : List Str) (acc : IdSet) (h : acc.Nodup) :
    (s.foldl insertSet acc).Nodup := by
  induction s generalizing acc with
  | nil => exact h
  | cons x xs ih => exact ih _ (nodup_insertSet h)

theorem mem_masterOf_aux (rs : List (Term × Option IdSet)) (acc : IdSet) (a : Str) :
    a ∈ rs.foldl (fun acc p =>
        match p.2 with
        | some s => s.foldl insertSet acc
        | none => acc) acc ↔
      a ∈ acc ∨ ∃ p ∈ rs, contrib a p := by
  induction rs generalizing acc with
  | nil => simp
  | cons p ps ih =>
    rw [List.foldl_cons, ih]
    cases hp : p.2 with
    | none => simp [hp, contrib]
    | some s =>
      simp [hp, mem_foldl_insertSet, contrib]
      tauto

theorem mem_masterOf {rs : List (Term × Option IdSet)} {a : Str} :
    a ∈ masterOf rs ↔ ∃ p ∈ rs, contrib a p := by
  rw [masterOf, mem_masterOf_aux]
  simp

theorem nodup_masterOf (rs : List (Term × Option IdSet)) : (masterOf rs).Nodup := by
  rw [masterOf]
  generalize hacc : ([] : IdSet) = acc
  have hnd : acc.Nodup := hacc ▸ List.nodup_nil
  clear hacc
  induction rs generalizing acc with
  | nil => exact hnd
  | cons p ps ih =>
    rw [List.foldl_cons]
    cases hp : p.2 with
    | none => simpa [hp] using ih _ hnd
    | some s => simpa [hp] using ih _ (nodup_foldl_insertSet s acc hnd)

/-- The sum of the weights of the Terms whose match set contains `id`. -/
def weightSum (rs : List (Term × Option IdSet)) (id : Str) : Nat :=
  ((rs.filter (contrib id)).map (fun p => p.1.points)).sum

theorem foldl_scoreStep_pscore (id : Str) (rs : List (Term × Option IdSet)) (init : RankRec) :
    (rs.foldl (scoreStep id) init).pscore = init.pscore + weightSum rs id := by
  induction rs generalizing init with
  | nil => simp [weightSum]
  | cons p ps ih =>
    rw [List.foldl_cons, ih]
    by_cases hc : contrib id p
    · simp [scoreStep, hc, weightSum, List.filter_cons]
      omega
    · simp [scoreStep, hc, weightSum, List.filter_cons]

theorem foldl_scoreStep_sscore (id : Str) (rs : List (Term × Option IdSet)) (init : RankRec) :
    (rs.foldl (scoreStep id) init).sscore = init.sscore := by
  induction rs generalizing init with
  | nil => rfl
  | cons p ps ih =>
    rw [List.foldl_cons, ih]
    by_cases hc : contrib id p <;> simp [scoreStep, hc]

theorem foldl_scoreStep_terms (id : Str) (rs : List (Term × Option IdSet)) (init : RankRec)
    (k : Str) :
    k ∈ (rs.foldl (scoreStep id) init).terms ↔
      k ∈ init.terms ∨ ∃ p ∈ rs, contrib id p ∧ pyStrOfKey p.1.key = k := by
  induction rs generalizing init with
  | nil => simp
  | cons p ps ih =>
    rw [List.foldl_cons, ih]
    by_cases hc : contrib id p
    · simp [scoreStep, hc, mem_insertSet]
      tauto
    · have hstep : scoreStep id init p = init := by simp [scoreStep, hc]
      rw [hstep]
      constructor
      · rintro (hm | ⟨p', hp', hcp', hk'⟩)
        · exact Or.inl hm
        · exact Or.inr ⟨p', List.mem_cons_of_mem p hp', hcp', hk'⟩
      · rintro (hm | ⟨p', hp', hcp', hk'⟩)
        · exact Or.inl hm
        · rcases List.mem_cons.mp hp' with rfl | hp''
          · rw [hcp'] at hc
            cases hc rfl
          · exact Or.inr ⟨p', hp'', hcp', hk'⟩

theorem scoreItem_pscore (rs : List (Term × Option IdSet)) (id : Str) :
    (scoreItem rs id).pscore = weightSum rs id := by
  rw [scoreItem, foldl_scoreStep_pscore]
  simp

theorem scoreItem_sscore (rs : List (Term × Option IdSet)) (id : Str) :
    (scoreItem rs id).sscore = 0 := by
  rw [scoreItem, foldl_scoreStep_sscore]

theorem scoreItem_terms (rs : List (Term × Option IdSet)) (id : Str) (k : Str) :
    k ∈ (scoreItem rs id).terms ↔ ∃ p ∈ rs, contrib id p ∧ pyStrOfKey p.1.key = k := by
  rw [scoreItem, foldl_scoreStep_terms]
  simp

/-- The seven term-kind strings of the source. -/
def termKinds : List Str :=
  [lit "cav", lit "ca", lit "cv", lit "av", lit "c", lit "a", lit "v"]

theorem branches_types_all (p1 p2 p3 p4 : Bool × Str) :
    (branches p1 p2 p3 p4).all (fun t => decide (t.type ∈ termKinds)) = true := by
  obtain ⟨b1, s1⟩ := p1
  obtain ⟨b2, s2⟩ := p2
  obtain ⟨b3, s3⟩ := p3
  obtain ⟨b4, s4⟩ := p4
  cases b1 <;> cases b2 <;> cases b3 <;> cases b4 <;> rfl

theorem parse_input_types {s : Str} {l : List Term} (h : parse_input s = some l)
    {t : Term} (ht : t ∈ l) : t.type ∈ termKinds := by
  cases s with
  | nil => exact absurd h (by simp [parse_input])
  | cons c rest =>
    have hp : parse_input (c :: rest) =
        some (branches (build_search_term '#' (normalizeToken (c :: rest)))
          (build_search_term '@' (normalizeToken (c :: rest)))
          (build_search_term '=' (normalizeToken (c :: rest)))
          (build_search_term '*' (normalizeToken (c :: rest)))) := rfl
    rw [hp] at h
    have hl := (Option.some.inj h).symm
    subst hl
    exact of_decide_eq_true (List.all_eq_true.mp (branches_types_all _ _ _ _) t ht)

theorem foldr_parse_types (toks : List Str) (ts : List Term)
    (h : toks.foldr (fun tok acc =>
        match parse_input tok, acc with
        | some l, some ls => some (l ++ ls)
        | _, _ => none) (some []) = some ts) :
    ∀ t ∈ ts, t.type ∈ termKinds := by
  induction toks generalizing ts with
  | nil =>
    have : ([] : List Term) = ts := Option.some.inj h
    subst this
    simp
  | cons tok toks ih =>
    rw [List.foldr_cons] at h
    cases hp : parse_input tok with
    | none => rw [hp] at h; cases h
    | some l =>
      cases hacc : toks.foldr (fun tok acc =>
          match parse_input tok, acc with
          | some l, some ls => some (l ++ ls)
          | _, _ => none) (some []) with
      | none => rw [hp, hacc] at h; cases h
      | some ls =>
        rw [hp, hacc] at h
        have : l ++ ls = ts := Option.some.inj h
        subst this
        intro t ht
        rcases List.mem_append.mp ht with hm | hm
        · exact parse_input_types hp hm
        · exact ih ls hacc t hm

theorem get_terms_types {q : Str} {ts : List Term} (h : get_terms q = some ts)
    {t : Term} (ht : t ∈ ts) : t.type ∈ termKinds :=
  foldr_parse_types (pySplitSpace (pyStrip q)) ts h t ht

theorem dispatch_eq_lookupFor (idx : SearchIndexLookup) (t : Term)
    (h7 : t.type ∈ termKinds) : dispatch idx t = [(t, lookupFor idx t)] := by
  obtain ⟨key, ty, pts⟩ := t
  simp only [termKinds, List.mem_cons, List.mem_singleton, List.not_mem_nil, or_false] at h7
  rcases h7 with h | h | h | h | h | h | h <;> (subst h; rfl)

theorem mem_flatMap_dispatch (idx : SearchIndexLookup) (ts : List Term)
    (hty : ∀ t ∈ ts, t.type ∈ termKinds) (P : Term × Option IdSet → Prop) :
    (∃ p ∈ ts.flatMap (dispatch idx), P p) ↔ ∃ t ∈ ts, P (t, lookupFor idx t) := by
  constructor
  · rintro ⟨p, hp, hP⟩
    obtain ⟨t, ht, hpd⟩ := List.mem_flatMap.mp hp
    rw [dispatch_eq_lookupFor idx t (hty t ht)] at hpd
    rw [List.mem_singleton] at hpd
    subst hpd
    exact ⟨t, ht, hP⟩
  · rintro ⟨t, ht, hP⟩
    refine ⟨(t, lookupFor idx t), List.mem_flatMap.mpr ⟨t, ht, ?_⟩, hP⟩
    rw [dispatch_eq_lookupFor idx t (hty t ht)]
    exact List.mem_singleton.mpr rfl

theorem search_eq_some {idx : SearchIndexLookup} {q : Str} {ts : List Term}
    (h : get_terms q = some ts) :
    search idx q =
      some ({ idx with ranked_items := (rank_results (ts.flatMap (dispatch idx))).1 },
        (rank_results (ts.flatMap (dispatch idx))).2.1,
        (rank_results (ts.flatMap (dispatch idx))).2.2) := by
  simp only [search, h]

theorem mem_rank_results_resp {rs : List (Term × Option IdSet)} {r : RankedResult}
    (h : r ∈ (rank_results rs).2.1) :
    r.uid ∈ masterOf rs ∧
      r = ⟨r.uid, (scoreItem rs r.uid).pscore, (scoreItem rs r.uid).sscore,
        (scoreItem rs r.uid).terms⟩ := by
  have h' : r ∈ ((pySorted rankLe
      ((masterOf rs).map (fun id => (id, scoreItem rs id)))).take 100).map
        (fun p => (⟨p.1, p.2.pscore, p.2.sscore, p.2.terms⟩ : RankedResult)) := h
  obtain ⟨p, hp, rfl⟩ := List.mem_map.mp h'
  have hp2 : p ∈ pySorted rankLe ((masterOf rs).map (fun id => (id, scoreItem rs id))) :=
    List.take_subset 100 _ hp
  rw [(pySorted_perm rankLe _).mem_iff] at hp2
  obtain ⟨id, hid, rfl⟩ := List.mem_map.mp hp2
  exact ⟨hid, rfl⟩

/-- C4: for every parsed query, the candidate set is exactly the union of the
match sets of those Terms whose key is present in the table their kind
selects (a lookup miss contributes nothing and is no error), and every
returned result's `pscore` is the sum of the weights of the Terms whose
match set contains its id, its `terms` set holding exactly the stringified
keys of those contributing Terms. -/
theorem search_union_scores_and_keys (idx : SearchIndexLookup) (q : Str)
    (ts : List Term) (h : get_terms q = some ts) :
    (∀ a, a ∈ masterOf (ts.flatMap (dispatch idx)) ↔
        ∃ t ∈ ts, ∃ s, lookupFor idx t = some s ∧ a ∈ s)
    ∧ (∀ st resp total, search idx q = some (st, resp, total) →
        ∀ r ∈ resp,
          r.pscore = weightSum (ts.flatMap (dispatch idx)) r.uid
          ∧ ∀ k, k ∈ r.terms ↔
              ∃ t ∈ ts, contrib r.uid (t, lookupFor idx t) ∧ pyStrOfKey t.key = k) := by
  have hty : ∀ t ∈ ts, t.type ∈ termKinds := fun t ht => get_terms_types h ht
  constructor
  · intro a
    rw [mem_masterOf, mem_flatMap_dispatch idx ts hty (fun p => contrib a p = true)]
    constructor
    · rintro ⟨t, ht, hc⟩
      obtain ⟨s, hs, has⟩ := contrib_iff.mp hc
      exact ⟨t, ht, s, hs, has⟩
    · rintro ⟨t, ht, s, hs, has⟩
      exact ⟨t, ht, contrib_iff.mpr ⟨s, hs, has⟩⟩
  · intro st resp total hsr r hr
    rw [search_eq_some h] at hsr
    have hresp : resp = (rank_results (ts.flatMap (dispatch idx))).2.1 := by
      injection hsr with hsr'
      exact (congrArg (fun o => o.2.1) hsr').symm
    subst hresp
    obtain ⟨humem, hreq⟩ := mem_rank_results_resp hr
    constructor
    · have := congrArg RankedResult.pscore hreq
      simp only at this
      rw [this, scoreItem_pscore]
    · intro k
      have := congrArg RankedResult.terms hreq
      simp only at this
      rw [this, scoreItem_terms]
      exact mem_flatMap_dispatch idx ts hty
        (fun p => contrib r.uid p = true ∧ pyStrOfKey p.1.key = k)

/-- The concrete record, index, query and parsed terms used by several
concrete evaluations below: one record of class "Tenant" carrying attribute
"T" and value "T", and the query token "#Tenant*T", which parses to a `ca`
Term and a `cv` Term sharing the key ("Tenant","T"). -/
def rec10 : Searchable := ⟨lit "Tenant", [lit "T"], [lit "T"], [], lit "u1"⟩

def idx10 : SearchIndexLookup := index_searchables initIndex [rec10]

def q10 : Str := lit "#Tenant*T"

def ts10 : List Term :=
  [⟨.k2 (lit "Tenant") (lit "T"), lit "ca", 3⟩,
    ⟨.k2 (lit "Tenant") (lit "T"), lit "cv", 3⟩]

/-- Witness for C4: the theorem applied at the concrete one-record index and
query "#Tenant*T". -/
theorem search_union_scores_and_keys_witness :
    lit "u1" ∈ masterOf (ts10.flatMap (dispatch idx10)) :=
  ((search_union_scores_and_keys idx10 q10 ts10 (by decide)).1 (lit "u1")).mpr
    ⟨⟨.k2 (lit "Tenant") (lit "T"), lit "ca", 3⟩, by decide,
      [lit "u1"], by decide, by decide⟩

/-- The result list of a `search` call (`[]` when the call raised). -/
def respOf (o : Option (SearchIndexLookup × List RankedResult × Nat)) : List RankedResult :=
  match o with
  | some x => x.2.1
  | none => []

/-- The total-candidate count of a `search` call (`0` when the call raised). -/
def totalOf (o : Option (SearchIndexLookup × List RankedResult × Nat)) : Nat :=
  match o with
  | some x => x.2.2
  | none => 0

/-- The object state after a `search` call (`dflt` when the call raised). -/
def stateOf (o : Option (SearchIndexLookup × List RankedResult × Nat))
    (dflt : SearchIndexLookup) : SearchIndexLookup :=
  match o with
  | some x => x.1
  | none => dflt

/-- C6: for every parsed query whose candidate set has N distinct ids, search
returns exactly min(N, 100) RankedResults — the first min(N, 100) in sort
order — together with totalCandidates = N. -/
theorem search_truncates (idx : SearchIndexLookup) (q : Str) (ts : List Term)
    (h : get_terms q = some ts) (st : SearchIndexLookup) (resp : List RankedResult)
    (total : Nat) (hsr : search idx q = some (st, resp, total)) :
    total = (masterOf (ts.flatMap (dispatch idx))).length
    ∧ resp.length = min total 100
    ∧ resp = ((pySorted rankLe ((masterOf (ts.flatMap (dispatch idx))).map
        (fun id => (id, scoreItem (ts.flatMap (dispatch idx)) id)))).take 100).map
        (fun p => ⟨p.1, p.2.pscore, p.2.sscore, p.2.terms⟩) := by
  rw [search_eq_some h] at hsr
  injection hsr with h'
  have hresp : resp = (rank_results (ts.flatMap (dispatch idx))).2.1 :=
    (congrArg (fun o => o.2.1) h').symm
  have htot : total = (rank_results (ts.flatMap (dispatch idx))).2.2 :=
    (congrArg (fun o => o.2.2) h').symm
  subst hresp
  subst htot
  refine ⟨?_, ?_, rfl⟩
  · simp [rank_results]
  · simp only [rank_results, List.length_map, List.length_take,
      (pySorted_perm rankLe _).length_eq]
    rw [Nat.min_comm]

/-- 150 records of class "X" with distinct ids and no attributes or values. -/
def recsC6 : List Searchable :=
  (List.range 150).map (fun i => ⟨lit "X", [], [], [], (toString i).data⟩)

def idxC6 : SearchIndexLookup := index_searchables initIndex recsC6

def tsC6 : List Term := [⟨.k1 (lit "X"), lit "c", 2⟩]

set_option maxRecDepth 400000

/-- Witness for C6: on the 150-record index, the query "#X" matches 150
distinct candidates, returns exactly 100 results and reports 150 total. -/
theorem search_truncates_witness :
    totalOf (search idxC6 (lit "#X")) = 150
    ∧ (respOf (search idxC6 (lit "#X"))).length = 100 := by
  obtain ⟨x, hx⟩ := Option.isSome_iff_exists.mp
    (by rfl : (search idxC6 (lit "#X")).isSome = true)
  obtain ⟨st, resp, total⟩ := x
  obtain ⟨ht, hl, -⟩ := search_truncates idxC6 (lit "#X") tsC6 (by rfl) st resp total hx
  have hm : (masterOf (tsC6.flatMap (dispatch idxC6))).length = 150 := by decide
  rw [hm] at ht
  constructor
  · simp only [totalOf, hx]
    exact ht
  · simp only [respOf, hx]
    rw [hl, ht]
    decide

theorem strLtB_irrefl : (a : Str) → strLtB a a = false
  | [] => rfl
  | x :: xs => by simp [strLtB, strLtB_irrefl xs]

theorem strLtB_trans : (a b c : Str) → strLtB a b = true → strLtB b c = true →
    strLtB a c = true
  | [], [], _, h1, _ => by simp [strLtB] at h1
  | [], _ :: _, [], _, h2 => by simp [strLtB] at h2
  | [], _ :: _, _ :: _, _, _ => by simp [strLtB]
  | _ :: _, [], _, h1, _ => by simp [strLtB] at h1
  | _ :: _, _ :: _, [], _, h2 => by simp [strLtB] at h2
  | x :: xs, y :: ys, z :: zs, h1, h2 => by
    simp only [strLtB] at h1 h2 ⊢
    by_cases hxy : x.toNat = y.toNat <;> by_cases hyz : y.toNat = z.toNat
    · rw [if_pos hxy] at h1
      rw [if_pos hyz] at h2
      rw [if_pos (hxy.trans hyz)]
      exact strLtB_trans xs ys zs h1 h2
    · rw [if_neg hyz] at h2
      have h2' := of_decide_eq_true h2
      have hne : ¬ x.toNat = z.toNat := by omega
      rw [if_neg hne]
      exact decide_eq_true (by omega)
    · rw [if_neg hxy] at h1
      have h1' := of_decide_eq_true h1
      have hne : ¬ x.toNat = z.toNat := by omega
      rw [if_neg hne]
      exact decide_eq_true (by omega)
    · rw [if_neg hxy] at h1
      rw [if_neg hyz] at h2
      have h1' := of_decide_eq_true h1
      have h2' := of_decide_eq_true h2
      have hne : ¬ x.toNat = z.toNat := by omega
      rw [if_neg hne]
      exact decide_eq_true (by omega)

theorem strLtB_eq_of_both_false : (a b : Str) → strLtB a b = false →
    strLtB b a = false → a = b
  | [], [], _, _ => rfl
  | [], _ :: _, h1, _ => by simp [strLtB] at h1
  | _ :: _, [], _, h2 => by simp [strLtB] at h2
  | x :: xs, y :: ys, h1, h2 => by
    simp only [strLtB] at h1 h2
    by_cases hxy : x.toNat = y.toNat
    · rw [if_pos hxy] at h1
      rw [if_pos hxy.symm] at h2
      have hxs : xs = ys := strLtB_eq_of_both_false xs ys h1 h2
      have hx : x = y := Char.ext (UInt32.toNat.inj hxy)
      rw [hx, hxs]
    · rw [if_neg hxy] at h1
      rw [if_neg (fun h => hxy h.symm)] at h2
      have h1' := of_decide_eq_false h1
      have h2' := of_decide_eq_false h2
      omega

theorem strLtB_not_both : (a b : Str) → strLtB a b = true → strLtB b a = false := by
  intro a b h
  cases hba : strLtB b a with
  | false => rfl
  | true =>
    have := strLtB_trans a b a h hba
    rw [strLtB_irrefl] at this
    cases this

theorem strLtB_false_trans (a b c : Str) (h1 : strLtB b a = false)
    (h2 : strLtB c b = false) : strLtB c a = false := by
  cases hca : strLtB c a with
  | false => rfl
  | true =>
    cases hab : strLtB a b with
    | true =>
      have := strLtB_trans c a b hca hab
      rw [this] at h2
      cases h2
    | false =>
      have hba : a = b := strLtB_eq_of_both_false a b hab h1
      rw [hba] at hca
      rw [hca] at h2
      cases h2

theorem rankLe_eq (a b : Str × RankRec) :
    rankLe a b =
      (decide (b.2.pscore < a.2.pscore) ||
        (decide (a.2.pscore = b.2.pscore) &&
          (decide (b.2.sscore < a.2.sscore) ||
            (decide (a.2.sscore = b.2.sscore) && !(strLtB b.1 a.1))))) := by
  rw [rankLe]
  by_cases hp : a.2.pscore = b.2.pscore
  · by_cases hs : a.2.sscore = b.2.sscore
    · simp [hp, hs]
    · simp [hp, hs]
  · simp [hp]

theorem rankLe_total (a b : Str × RankRec) : rankLe a b || rankLe b a := by
  simp only [rankLe_eq, Bool.or_eq_true, Bool.and_eq_true, decide_eq_true_eq,
    Bool.not_eq_true']
  rcases Nat.lt_trichotomy a.2.pscore b.2.pscore with hp | hp | hp
  · right
    left
    exact hp
  · rcases Nat.lt_trichotomy a.2.sscore b.2.sscore with hs | hs | hs
    · right
      right
      exact ⟨hp.symm, Or.inl hs⟩
    · cases hab : strLtB b.1 a.1 with
      | false =>
        left
        right
        exact ⟨hp, Or.inr ⟨hs, rfl⟩⟩
      | true =>
        right
        right
        exact ⟨hp.symm, Or.inr ⟨hs.symm, strLtB_not_both b.1 a.1 hab⟩⟩
    · left
      right
      exact ⟨hp, Or.inl hs⟩
  · left
    left
    exact hp

theorem rankLe_trans (a b c : Str × RankRec) (h1 : rankLe a b) (h2 : rankLe b c) :
    rankLe a c := by
  simp only [rankLe_eq, Bool.or_eq_true, Bool.and_eq_true, decide_eq_true_eq,
    Bool.not_eq_true'] at h1 h2 ⊢
  rcases h1 with h1 | ⟨hp1, h1⟩
  · rcases h2 with h2 | ⟨hp2, h2⟩
    · left
      omega
    · left
      omega
  · rcases h2 with h2 | ⟨hp2, h2⟩
    · left
      omega
    · right
      refine ⟨hp1.trans hp2, ?_⟩
      rcases h1 with h1 | ⟨hs1, h1⟩
      · rcases h2 with h2 | ⟨hs2, h2⟩
        · left
          omega
        · left
          omega
      · rcases h2 with h2 | ⟨hs2, h2⟩
        · left
          omega
        · right
          exact ⟨hs1.trans hs2, strLtB_false_trans a.1 b.1 c.1 h1 h2⟩

/-- The strict order in which results are emitted: higher `pscore` first, then
higher `sscore`, then lexicographically smaller `uid`. -/
def rankBefore (r1 r2 : RankedResult) : Prop :=
  r2.pscore < r1.pscore ∨
    (r1.pscore = r2.pscore ∧
      (r2.sscore < r1.sscore ∨
        (r1.sscore = r2.sscore ∧ strLtB r1.uid r2.uid = true)))

theorem rankLe_strict (a b : Str × RankRec) (h : rankLe a b) (hne : a.1 ≠ b.1) :
    b.2.pscore < a.2.pscore ∨
      (a.2.pscore = b.2.pscore ∧
        (b.2.sscore < a.2.sscore ∨
          (a.2.sscore = b.2.sscore ∧ strLtB a.1 b.1 = true))) := by
  simp only [rankLe_eq, Bool.or_eq_true, Bool.and_eq_true, decide_eq_true_eq,
    Bool.not_eq_true'] at h
  rcases h with h | ⟨hp, h⟩
  · left
    exact h
  · right
    refine ⟨hp, ?_⟩
    rcases h with h | ⟨hs, h⟩
    · left
      exact h
    · right
      refine ⟨hs, ?_⟩
      cases hab : strLtB a.1 b.1 with
      | true => rfl
      | false => exact absurd (strLtB_eq_of_both_false a.1 b.1 hab h) hne

theorem rank_results_sorted (rs : List (Term × Option IdSet)) :
    (rank_results rs).2.1.Pairwise rankBefore := by
  have hsorted := sorted_pySorted rankLe rankLe_trans rankLe_total
    ((masterOf rs).map (fun id => (id, scoreItem rs id)))
  have h1 : (((masterOf rs).map (fun id => (id, scoreItem rs id))).map Prod.fst)
      = masterOf rs := by
    generalize masterOf rs = l
    induction l with
    | nil => rfl
    | cons a as ih => simp only [List.map_cons, ih]
  have hperm := (pySorted_perm rankLe
    ((masterOf rs).map (fun id => (id, scoreItem rs id)))).map Prod.fst
  rw [h1] at hperm
  have hnodup := hperm.nodup_iff.mpr (nodup_masterOf rs)
  have hpair := List.pairwise_map.mp hnodup
  have hstrict := (hsorted.and hpair).imp
    (fun {a b} hab => rankLe_strict a b hab.1 hab.2)
  exact List.pairwise_map.mpr (hstrict.sublist (List.take_sublist 100 _))

/-- C5: every returned result list is sorted by descending `pscore`, then
descending `sscore`, then ascending `uid`; in particular two distinct
candidates with equal scores always appear in ascending-id order, whatever
index state the query runs against. -/
theorem search_results_sorted (idx : SearchIndexLookup) (q : Str) (ts : List Term)
    (h : get_terms q = some ts) (st : SearchIndexLookup) (resp : List RankedResult)
    (total : Nat) (hsr : search idx q = some (st, resp, total)) :
    resp.Pairwise rankBefore := by
  rw [search_eq_some h] at hsr
  injection hsr with h'
  have hresp : resp = (rank_results (ts.flatMap (dispatch idx))).2.1 :=
    (congrArg (fun o => o.2.1) h').symm
  subst hresp
  exact rank_results_sorted _

/-- Two equal-score records whose ids are enumerated in descending order. -/
def recsC5 : List Searchable :=
  [⟨lit "X", [], [], [], lit "b"⟩, ⟨lit "X", [], [], [], lit "a"⟩]

def idxC5 : SearchIndexLookup := index_searchables initIndex recsC5

/-- Witness for C5: on the two-record index built in descending id order, the
query "#X" returns a sorted list, concretely in ascending id order. -/
theorem search_results_sorted_witness :
    (respOf (search idxC5 (lit "#X"))).Pairwise rankBefore
    ∧ (respOf (search idxC5 (lit "#X"))).map RankedResult.uid = [lit "a", lit "b"] := by
  constructor
  · obtain ⟨x, hx⟩ := Option.isSome_iff_exists.mp
      (by rfl : (search idxC5 (lit "#X")).isSome = true)
    obtain ⟨st, resp, total⟩ := x
    have hp := search_results_sorted idxC5 (lit "#X") tsC6 (by rfl) st resp total hx
    simpa [respOf, hx] using hp
  · decide

theorem getSet_cons (p : TermKey × IdSet) (rest : TermMap) (k' : TermKey) :
    getSet (p :: rest) k' = if p.1 = k' then p.2 else getSet rest k' := by
  by_cases h : p.1 = k' <;> simp [getSet, lookupTable, List.find?_cons, h]

theorem getSet_insertId (m : TermMap) (k : TermKey) (id : Str) (k' : TermKey) :
    getSet (insertId m k id) k' =
      if k = k' then insertSet (getSet m k') id else getSet m k' := by
  induction m with
  | nil =>
    rw [insertId, getSet_cons]
    by_cases hk : k = k' <;> simp [hk, getSet, lookupTable, insertSet]
  | cons p rest ih =>
    obtain ⟨pk, ps⟩ := p
    rw [insertId]
    by_cases hpk : pk = k
    · rw [if_pos hpk, getSet_cons, getSet_cons]
      subst hpk
      by_cases hk : pk = k'
      · simp [hk]
      · simp [hk]
    · rw [if_neg hpk, getSet_cons, getSet_cons, ih]
      by_cases hk' : pk = k'
      · by_cases hk : k = k'
        · exact absurd (hk'.trans hk.symm) hpk
        · simp [hk', hk]
      · simp [hk']

theorem mem_getSet_insertId {m : TermMap} {k : TermKey} {id : Str} {k' : TermKey}
    {a : Str} :
    a ∈ getSet (insertId m k id) k' ↔ a ∈ getSet m k' ∨ (a = id ∧ k = k') := by
  rw [getSet_insertId]
  by_cases hk : k = k' <;> simp [hk, mem_insertSet]

theorem mem_getSet_foldl_insertId (ks : List TermKey) (id : Str) (m0 : TermMap)
    (k : TermKey) (a : Str) :
    a ∈ getSet (ks.foldl (fun m kk => insertId m kk id) m0) k ↔
      a ∈ getSet m0 k ∨ (a = id ∧ k ∈ ks) := by
  induction ks generalizing m0 with
  | nil => simp
  | cons kk ks ih =>
    rw [List.foldl_cons, ih, mem_getSet_insertId]
    constructor
    · rintro ((hm | ⟨rfl, rfl⟩) | ⟨rfl, hk⟩)
      · exact Or.inl hm
      · exact Or.inr ⟨rfl, List.mem_cons_self kk ks⟩
      · exact Or.inr ⟨rfl, List.mem_cons_of_mem kk hk⟩
    · rintro (hm | ⟨rfl, hk⟩)
      · exact Or.inl (Or.inl hm)
      · rcases List.mem_cons.mp hk with rfl | hk'
        · exact Or.inl (Or.inr ⟨rfl, rfl⟩)
        · exact Or.inr ⟨rfl, hk'⟩

theorem mem_getSet_foldl_addSearchable
    (proj : SearchIndexLookup → TermMap) (keys : Searchable → List TermKey)
    (hstep : ∀ idx sr, proj (addSearchable idx sr) =
      (keys sr).foldl (fun m kk => insertId m kk sr.dn) (proj idx))
    (srs : List Searchable) (idx : SearchIndexLookup) (k : TermKey) (a : Str) :
    a ∈ getSet (proj (srs.foldl addSearchable idx)) k ↔
      a ∈ getSet (proj idx) k ∨ ∃ sr ∈ srs, sr.dn = a ∧ k ∈ keys sr := by
  induction srs generalizing idx with
  | nil => simp
  | cons sr srs ih =>
    rw [List.foldl_cons, ih, hstep, mem_getSet_foldl_insertId]
    constructor
    · rintro ((hm | ⟨rfl, hk⟩) | ⟨sr', hsr', rfl, hk'⟩)
      · exact Or.inl hm
      · exact Or.inr ⟨sr, List.mem_cons_self sr srs, rfl, hk⟩
      · exact Or.inr ⟨sr', List.mem_cons_of_mem sr hsr', rfl, hk'⟩
    · rintro (hm | ⟨sr', hsr', rfl, hk'⟩)
      · exact Or.inl (Or.inl hm)
      · rcases List.mem_cons.mp hsr' with rfl | h
        · exact Or.inl (Or.inr ⟨rfl, hk'⟩)
        · exact Or.inr ⟨sr', h, rfl, hk'⟩

theorem not_mem_getSet_nil (k : TermKey) (a : Str) : a ∉ getSet ([] : TermMap) k := by
  simp [getSet, lookupTable]

/-- C7: after a build, every record's id is present in each of the seven
tables under every key its class, attributes, values and pairs produce, and
no table entry contains an id that does not belong to a record of the built
set. -/
theorem index_invariants (idx0 : SearchIndexLookup) (srs : List Searchable) :
    (∀ sr ∈ srs,
      sr.dn ∈ getSet (index_searchables idx0 srs).by_class (.k1 sr.object_class)
      ∧ (∀ x ∈ sr.attr,
          sr.dn ∈ getSet (index_searchables idx0 srs).by_attr (.k1 x)
          ∧ sr.dn ∈ getSet (index_searchables idx0 srs).by_class_attr
              (.k2 sr.object_class x))
      ∧ (∀ v ∈ sr.value,
          sr.dn ∈ getSet (index_searchables idx0 srs).by_value (.k1 v)
          ∧ sr.dn ∈ getSet (index_searchables idx0 srs).by_class_value
              (.k2 sr.object_class v))
      ∧ (∀ p ∈ sr.attr_value,
          sr.dn ∈ getSet (index_searchables idx0 srs).by_attr_value (.k2 p.1 p.2)
          ∧ sr.dn ∈ getSet (index_searchables idx0 srs).by_class_attr_value
              (.k3 sr.object_class p.1 p.2)))
    ∧ (∀ k a,
        a ∈ getSet (index_searchables idx0 srs).by_class k
          ∨ a ∈ getSet (index_searchables idx0 srs).by_attr k
          ∨ a ∈ getSet (index_searchables idx0 srs).by_value k
          ∨ a ∈ getSet (index_searchables idx0 srs).by_attr_value k
          ∨ a ∈ getSet (index_searchables idx0 srs).by_class_attr k
          ∨ a ∈ getSet (index_searchables idx0 srs).by_class_value k
          ∨ a ∈ getSet (index_searchables idx0 srs).by_class_attr_value k →
        ∃ sr ∈ srs, sr.dn = a) := by
  have hcls := mem_getSet_foldl_addSearchable (fun i => i.by_class)
    (fun sr => [TermKey.k1 sr.object_class]) (fun idx sr => rfl) srs
    { initIndex with ranked_items := idx0.ranked_items }
  have hattr := mem_getSet_foldl_addSearchable (fun i => i.by_attr)
    (fun sr => sr.attr.map TermKey.k1)
    (fun idx sr => by simp only [addSearchable, List.foldl_map]) srs
    { initIndex with ranked_items := idx0.ranked_items }
  have hca := mem_getSet_foldl_addSearchable (fun i => i.by_class_attr)
    (fun sr => sr.attr.map (fun x => TermKey.k2 sr.object_class x))
    (fun idx sr => by simp only [addSearchable, List.foldl_map]) srs
    { initIndex with ranked_items := idx0.ranked_items }
  have hval := mem_getSet_foldl_addSearchable (fun i => i.by_value)
    (fun sr => sr.value.map TermKey.k1)
    (fun idx sr => by simp only [addSearchable, List.foldl_map]) srs
    { initIndex with ranked_items := idx0.ranked_items }
  have hcv := mem_getSet_foldl_addSearchable (fun i => i.by_class_value)
    (fun sr => sr.value.map (fun v => TermKey.k2 sr.object_class v))
    (fun idx sr => by simp only [addSearchable, List.foldl_map]) srs
    { initIndex with ranked_items := idx0.ranked_items }
  have hav := mem_getSet_foldl_addSearchable (fun i => i.by_attr_value)
    (fun sr => sr.attr_value.map (fun p => TermKey.k2 p.1 p.2))
    (fun idx sr => by simp only [addSearchable, List.foldl_map]) srs
    { initIndex with ranked_items := idx0.ranked_items }
  have hcav := mem_getSet_foldl_addSearchable (fun i => i.by_class_attr_value)
    (fun sr => sr.attr_value.map (fun p => TermKey.k3 sr.object_class p.1 p.2))
    (fun idx sr => by simp only [addSearchable, List.foldl_map]) srs
    { initIndex with ranked_items := idx0.ranked_items }
  constructor
  · intro sr hsr
    refine ⟨?_, fun x hx => ⟨?_, ?_⟩, fun v hv => ⟨?_, ?_⟩, fun p hp => ⟨?_, ?_⟩⟩
    · exact (hcls _ sr.dn).mpr (Or.inr ⟨sr, hsr, rfl, List.mem_singleton.mpr rfl⟩)
    · exact (hattr _ sr.dn).mpr (Or.inr ⟨sr, hsr, rfl, List.mem_map_of_mem _ hx⟩)
    · exact (hca _ sr.dn).mpr (Or.inr ⟨sr, hsr, rfl, List.mem_map_of_mem _ hx⟩)
    · exact (hval _ sr.dn).mpr (Or.inr ⟨sr, hsr, rfl, List.mem_map_of_mem _ hv⟩)
    · exact (hcv _ sr.dn).mpr (Or.inr ⟨sr, hsr, rfl, List.mem_map_of_mem _ hv⟩)
    · exact (hav _ sr.dn).mpr (Or.inr ⟨sr, hsr, rfl, List.mem_map_of_mem _ hp⟩)
    · exact (hcav _ sr.dn).mpr (Or.inr ⟨sr, hsr, rfl, List.mem_map_of_mem _ hp⟩)
  · intro k a hmem
    rcases hmem with hm | hm | hm | hm | hm | hm | hm
    · rcases (hcls k a).mp hm with hm0 | ⟨sr, hsr, rfl, -⟩
      · exact absurd hm0 (not_mem_getSet_nil k a)
      · exact ⟨sr, hsr, rfl⟩
    · rcases (hattr k a).mp hm with hm0 | ⟨sr, hsr, rfl, -⟩
      · exact absurd hm0 (not_mem_getSet_nil k a)
      · exact ⟨sr, hsr, rfl⟩
    · rcases (hval k a).mp hm with hm0 | ⟨sr, hsr, rfl, -⟩
      · exact absurd hm0 (not_mem_getSet_nil k a)
      · exact ⟨sr, hsr, rfl⟩
    · rcases (hav k a).mp hm with hm0 | ⟨sr, hsr, rfl, -⟩
      · exact absurd hm0 (not_mem_getSet_nil k a)
      · exact ⟨sr, hsr, rfl⟩
    · rcases (hca k a).mp hm with hm0 | ⟨sr, hsr, rfl, -⟩
      · exact absurd hm0 (not_mem_getSet_nil k a)
      · exact ⟨sr, hsr, rfl⟩
    · rcases (hcv k a).mp hm with hm0 | ⟨sr, hsr, rfl, -⟩
      · exact absurd hm0 (not_mem_getSet_nil k a)
      · exact ⟨sr, hsr, rfl⟩
    · rcases (hcav k a).mp hm with hm0 | ⟨sr, hsr, rfl, -⟩
      · exact absurd hm0 (not_mem_getSet_nil k a)
      · exact ⟨sr, hsr, rfl⟩

/-- Witness for C7: the invariant applied to the concrete one-record set. -/
theorem index_invariants_witness :
    rec10.dn ∈ getSet (index_searchables initIndex [rec10]).by_class
      (.k1 rec10.object_class) :=
  ((index_invariants initIndex [rec10]).1 rec10 (List.mem_singleton.mpr rfl)).1

theorem foldl_addSearchable_ranked (st : SearchIndexLookup) (l : List Searchable) :
    (l.foldl addSearchable st).ranked_items = st.ranked_items := by
  induction l generalizing st with
  | nil => rfl
  | cons sr l ih =>
    rw [List.foldl_cons, ih]
    rfl

theorem search_eq_none {idx : SearchIndexLookup} {q : Str}
    (h : get_terms q = none) : search idx q = none := by
  simp only [search, h]

/-- C8: building twice from the same record set leaves an identical object
state — each build clears and fully repopulates the seven tables — so every
query returns identical results after one build or two. -/
theorem build_idempotent (idx : SearchIndexLookup) (srs : List Searchable) (q : Str) :
    search (index_searchables (index_searchables idx srs) srs) q =
      search (index_searchables idx srs) q := by
  have h2 : (index_searchables idx srs).ranked_items = idx.ranked_items :=
    foldl_addSearchable_ranked _ srs
  have h : index_searchables (index_searchables idx srs) srs =
      index_searchables idx srs := by
    show srs.foldl addSearchable
        { initIndex with ranked_items := (index_searchables idx srs).ranked_items } =
      srs.foldl addSearchable { initIndex with ranked_items := idx.ranked_items }
    rw [h2]
  rw [h]

/-- C9: `search` never modifies the seven index tables — only the
`ranked_items` scratch field — so every later query against the resulting
state returns exactly what it would have returned against the original
state. -/
theorem search_readonly (idx : SearchIndexLookup) (q : Str) (st : SearchIndexLookup)
    (resp : List RankedResult) (total : Nat)
    (hsr : search idx q = some (st, resp, total)) :
    st.by_attr = idx.by_attr ∧ st.by_value = idx.by_value
    ∧ st.by_class = idx.by_class ∧ st.by_attr_value = idx.by_attr_value
    ∧ st.by_class_value = idx.by_class_value ∧ st.by_class_attr = idx.by_class_attr
    ∧ st.by_class_attr_value = idx.by_class_attr_value
    ∧ ∀ q2, searchOut st q2 = searchOut idx q2 := by
  cases hget : get_terms q with
  | none =>
    rw [search_eq_none hget] at hsr
    exact Option.noConfusion hsr
  | some ts =>
    rw [search_eq_some hget] at hsr
    injection hsr with h'
    have hst : st =
        { idx with ranked_items := (rank_results (ts.flatMap (dispatch idx))).1 } :=
      (congrArg Prod.fst h').symm
    subst hst
    exact ⟨rfl, rfl, rfl, rfl, rfl, rfl, rfl, fun q2 => rfl⟩

/-- Witness for C9: the tables of the state after the concrete search equal
the original tables. -/
theorem search_readonly_witness :
    (stateOf (search idx10 q10) initIndex).by_class = idx10.by_class := by
  obtain ⟨x, hx⟩ := Option.isSome_iff_exists.mp
    (by rfl : (search idx10 q10).isSome = true)
  obtain ⟨st, resp, total⟩ := x
  have h := search_readonly idx10 q10 st resp total hx
  simp only [stateOf, hx]
  exact h.2.2.1

/-- C10: the query token "#Tenant*T" expands into a `ca` Term and a `cv` Term
with the identical key ("Tenant","T"); a record matched by both gains both
weights (3 + 3 = 6) in `pscore`, while its `terms` set gains only one entry,
so the number of matched-term keys (1) is strictly below the number of
contributing Terms (2). -/
theorem matched_term_keys_collapse :
    get_terms q10 = some ts10
    ∧ ts10.map Term.key =
        [TermKey.k2 (lit "Tenant") (lit "T"), TermKey.k2 (lit "Tenant") (lit "T")]
    ∧ (respOf (search idx10 q10)).map (fun r => (r.uid, r.pscore, r.terms.length)) =
        [(lit "u1", 6, 1)]
    ∧ ((ts10.flatMap (dispatch idx10)).filter (contrib (lit "u1"))).length = 2 := by
  decide
